import Mathlib

/-!
Verification of the `pdf_rasterizer` repository (src/lib.rs, src/main.rs).

The development shallowly embeds the Rust source:

* single-precision (f32) arithmetic used by the source for color and
  geometry math is modelled exactly over `ℚ` (round to nearest, ties to
  even, 24-bit significand, unbounded exponent range — all values that
  occur stay far inside f32's normal range, so the model is exact);
* `process_page`'s un-premultiplication loop, buffer construction and
  encoding (lib.rs 195-250);
* the two drivers `rasterize_pdf` (lib.rs 15-193) and
  `rasterize_pdf_with_progress` (lib.rs 254-449) with the external
  collaborators (hayro parse/render, the JPEG codec, lopdf
  serialization) abstracted as explicit parameters;
* the lopdf-based document assembly, object-id allocation included.
-/

namespace PdfRasterizer


/-! ### Exact model of f32 rounding -/

/-- Fuelled base-2 logarithm: `natLog2F fuel n` is `⌊log₂ n⌋` whenever
`0 < n ≤ fuel`.  Structural recursion on the fuel keeps it kernel-reducible. -/
def natLog2F (fuel n : ℕ) : ℕ :=
  match fuel with
  | 0 => 0
  | f + 1 => if n < 2 then 0 else natLog2F f (n / 2) + 1

/-- `⌊log₂ n⌋` for positive `n` (0 for 0). -/
def natLog2 (n : ℕ) : ℕ := natLog2F n n

/-- Floor of a nonnegative rational, landing in `ℕ`. -/
def ratFloorN (x : ℚ) : ℕ := x.num.toNat / x.den

/-- Rational multiplication, written through `Rat.divInt` so that concrete
values reduce inside the kernel (the library's own `Rat.mul` is irreducible). -/
def qmul (a b : ℚ) : ℚ := Rat.divInt (a.num * b.num) (a.den * b.den)

/-- Rational division through `Rat.divInt`; division by zero yields 0,
matching the library convention. -/
def qdiv (a b : ℚ) : ℚ := Rat.divInt (a.num * b.den) (a.den * b.num)

/-- Rational subtraction through `Rat.divInt`. -/
def qsub (a b : ℚ) : ℚ := Rat.divInt (a.num * b.den - b.num * a.den) (a.den * b.den)

/-- Round a nonnegative rational to the nearest natural number, ties to even
(the IEEE-754 default rounding used by every f32 operation in the source). -/
def rheN (y : ℚ) : ℕ :=
  let n := ratFloorN y
  let f := qsub y n
  if f < Rat.divInt 1 2 then n
  else if Rat.divInt 1 2 < f then n + 1
  else if n % 2 = 0 then n else n + 1

/-- `⌊log₂ x⌋` of a positive rational, as an integer. -/
def floorLog2 (x : ℚ) : ℤ :=
  if 1 ≤ x then (natLog2 (ratFloorN x) : ℤ)
  else -((natLog2 ((x.den - 1) / x.num.toNat) + 1 : ℕ) : ℤ)

/-- Round a rational to the nearest f32 value (24-bit significand, round to
nearest ties to even, unbounded exponent).  Only ever applied to nonnegative
values in the source's working range, where it coincides exactly with IEEE-754
single-precision rounding; nonpositive inputs are mapped to 0. -/
def roundF32 (x : ℚ) : ℚ :=
  if x ≤ 0 then 0
  else
    let e := floorLog2 x
    if e ≤ 23 then
      let s : ℕ := (23 - e).toNat
      qdiv (rheN (qmul x ((2 ^ s : ℕ) : ℚ)) : ℚ) ((2 ^ s : ℕ) : ℚ)
    else
      let s : ℕ := (e - 23).toNat
      qmul (rheN (qdiv x ((2 ^ s : ℕ) : ℚ)) : ℚ) ((2 ^ s : ℕ) : ℚ)

/-! ### Color conversion (`process_page`, lib.rs 211-230) -/

/-- One color channel of the un-premultiply step (lib.rs 220-224):
`factor = 255.0 / a as f32` and `(c as f32 * factor).min(255.0) as u8`.
The `as u8` cast truncates toward zero (the value is already in `[0, 255]`
after the `min`, so no saturation occurs). -/
def unpremulChannel (c a : ℕ) : ℕ :=
  let factor := roundF32 (qdiv (255 : ℚ) (roundF32 (a : ℚ)))
  ratFloorN (min (roundF32 (qmul (roundF32 (c : ℚ)) factor)) 255)

/-- One pixel of the un-premultiply loop (lib.rs 219-229): channels are
un-premultiplied when `a > 0`, and a fully transparent pixel becomes
`(0,0,0)`. -/
def unpremulPixel (r g b a : ℕ) : ℕ × ℕ × ℕ :=
  if 0 < a then (unpremulChannel r a, unpremulChannel g a, unpremulChannel b a)
  else (0, 0, 0)

/-- The RGBA→RGB conversion loop (lib.rs 212-230): iterate over exact
4-byte chunks (`chunks_exact(4)` drops any incomplete trailing chunk) and
emit three bytes per pixel. -/
def rgbOfRgba : List ℕ → List ℕ
  | r :: g :: b :: a :: rest =>
      let p := unpremulPixel r g b a
      p.1 :: p.2.1 :: p.2.2 :: rgbOfRgba rest
  | _ => []

/-! ### Page geometry (lib.rs 75-79 / 324-328) -/

/-- One side of the output page size in points (lib.rs 78-79):
`page_width = (img_w / dpi as f32) * 72.0`, where `img_w = *img_w as f32`
(lib.rs 75).  Every operation is an f32 operation: both casts, the division
and the multiplication each round once. -/
def pageSizePt (px dpi : ℕ) : ℚ :=
  roundF32 (qmul (roundF32 (qdiv (roundF32 (px:ℚ)) (roundF32 (dpi:ℚ)))) 72)

/-! ### Document model (lopdf object graph, lib.rs 71-190 / 310-432)

`PObj` mirrors the `lopdf::Object` constructors actually used by the source;
`PDoc` mirrors the parts of `lopdf::Document` the source touches: the id
allocator `max_id` (object ids are allocated as `max_id + 1`, generation
number always 0), the object table, and the trailer's `Root` entry.  The
object table is kept as an insertion-ordered association list; every insert
in the source uses a fresh id, so first-match lookup agrees with the
`BTreeMap` semantics of `lopdf`. -/

inductive PObj where
  | name : String → PObj
  | int : ℤ → PObj
  | real : ℚ → PObj
  | ref : ℕ → PObj
  | array : List PObj → PObj
  | dict : List (String × PObj) → PObj
  | stream : List (String × PObj) → List ℕ → PObj

structure PDoc where
  maxId : ℕ
  objects : List (ℕ × PObj)
  trailerRoot : Option ℕ

/-- `lopdf::Document::with_version("1.5")`: empty object table, `max_id = 0`. -/
def emptyDoc : PDoc := ⟨0, [], none⟩

/-- `Document::new_object_id`: bump `max_id` and return it (generation 0). -/
def newObjectId (d : PDoc) : ℕ × PDoc :=
  (d.maxId + 1, { d with maxId := d.maxId + 1 })

/-- `Document::add_object`: allocate a fresh id and insert the object there. -/
def addObject (o : PObj) (d : PDoc) : ℕ × PDoc :=
  (d.maxId + 1, { d with maxId := d.maxId + 1, objects := d.objects ++ [(d.maxId + 1, o)] })

/-- `doc.objects.insert(id, obj)` at an id known to be fresh. -/
def insertObject (i : ℕ) (o : PObj) (d : PDoc) : PDoc :=
  { d with objects := d.objects ++ [(i, o)] }

/-- First-match lookup in the object table. -/
def findEntry : List (ℕ × PObj) → ℕ → Option PObj
  | [], _ => none
  | e :: rest, i => if e.1 = i then some e.2 else findEntry rest i

def lookupObj (d : PDoc) (i : ℕ) : Option PObj := findEntry d.objects i

/-- `lopdf::Dictionary::set`: replace the value under an existing key, or
append a new key-value pair. -/
def setKey (entries : List (String × PObj)) (k : String) (v : PObj) : List (String × PObj) :=
  if entries.any (fun p => p.1 = k) then
    entries.map (fun p => if p.1 = k then (k, v) else p)
  else entries ++ [(k, v)]

/-- The per-page result of `process_page` (lib.rs 249):
`(page_index, jpeg_bytes, width, height)`. -/
abbrev PageResult := ℕ × List ℕ × ℕ × ℕ

/-- Stands for the content-stream bytes
`q\n{page_width} 0 0 {page_height} 0 0 cm\n/Im{page_num} Do\nQ`
(lib.rs 99-102): an injective encoding of the placement transform and the
image name index.  The byte-level decimal formatting of the two f32 values is
not modelled; no claim depends on it, and both drivers build this stream with
the same code, which this shared definition preserves. -/
def contentStreamData (w h : ℚ) (n : ℕ) : List ℕ :=
  [w.num.toNat, w.den, h.num.toNat, h.den, n]

/-- The image XObject stream of one page (lib.rs 85-96).  `Width`/`Height`
are `img_w as i64` of the f32 value `img_w`, i.e. the truncated cast. -/
def imageObj (imgW imgH : ℕ) (jpeg : List ℕ) : PObj :=
  .stream
    [("Type", .name "XObject"), ("Subtype", .name "Image"),
     ("Width", .int (ratFloorN (roundF32 (imgW:ℚ)) : ℕ)),
     ("Height", .int (ratFloorN (roundF32 (imgH:ℚ)) : ℕ)),
     ("ColorSpace", .name "DeviceRGB"), ("BitsPerComponent", .int 8),
     ("Filter", .name "DCTDecode")]
    jpeg

/-- The content stream object of one page (lib.rs 104-107). -/
def contentObj (dpi pageNum imgW imgH : ℕ) : PObj :=
  .stream [] (contentStreamData (pageSizePt imgW dpi) (pageSizePt imgH dpi) pageNum)

/-- The resources dictionary of one page (lib.rs 110-119). -/
def resourcesObj (pageNum imageId : ℕ) : PObj :=
  .dict [("XObject", .dict [("Im" ++ toString pageNum, .ref imageId)])]

/-- The page dictionary of one page, before the `Parent` backfill
(lib.rs 122-130). -/
def pageDictEntries (dpi _pageNum imgW imgH contentId resourcesId : ℕ) :
    List (String × PObj) :=
  [("Type", .name "Page"),
   ("MediaBox", .array [.int 0, .int 0,
     .real (pageSizePt imgW dpi), .real (pageSizePt imgH dpi)]),
   ("Contents", .ref contentId), ("Resources", .ref resourcesId)]

/-- The body of the per-page assembly loop (lib.rs 74-133): allocate the
page id first, then add the image XObject, the content stream and the
resources dictionary, and finally insert the page dictionary at the
pre-allocated page id. -/
def addPageObjs (dpi : ℕ) (doc : PDoc) (pageNum : ℕ) (pg : PageResult) : PDoc :=
  let jpeg := pg.2.1
  let imgW := pg.2.2.1
  let imgH := pg.2.2.2
  let (pageId, d1) := newObjectId doc
  let (imageId, d2) := addObject (imageObj imgW imgH jpeg) d1
  let (contentId, d3) := addObject (contentObj dpi pageNum imgW imgH) d2
  let (resourcesId, d4) := addObject (resourcesObj pageNum imageId) d3
  insertObject pageId
    (.dict (pageDictEntries dpi pageNum imgW imgH contentId resourcesId)) d4

/-- lib.rs 136-139 / 385-389: the page ids are RECOMPUTED from the page count
by the arithmetic stride `1 + i * 4` (\"4 objects are created per page\"),
not taken from the ids the loop actually allocated. -/
def stridePageIds (n : ℕ) : List ℕ := (List.range n).map (fun i => 1 + i * 4)

/-- The page ids as actually returned by each iteration's `new_object_id`
call in the per-page loop.  This is the \"captured identity\" sequence that
the specification requires back-references to use; the source discards these
values and recomputes them with `stridePageIds` instead. -/
def capturedPageIds (dpi : ℕ) (imageData : List PageResult) : List ℕ :=
  ((imageData.enum).foldl
    (fun (acc : PDoc × List ℕ) p =>
      (addPageObjs dpi acc.1 p.1 p.2, acc.2 ++ [acc.1.maxId + 1]))
    (emptyDoc, [])).2

/-- Set `Parent` on the object stored at one id, if it is a dictionary
(lib.rs 159-165: `get_mut` + `as_dict_mut` + `set`; a failed `as_dict_mut`
or missing id is silently skipped). -/
def setParentAt (pagesId : ℕ) (doc : PDoc) (i : ℕ) : PDoc :=
  { doc with objects := doc.objects.map (fun e =>
      if e.1 = i then
        (e.1, match e.2 with
          | .dict entries => .dict (setKey entries "Parent" (.ref pagesId))
          | o => o)
      else e) }

/-- The `Parent` backfill pass over all page ids (lib.rs 158-165). -/
def backfillParents (pagesId : ℕ) (ids : List ℕ) (doc : PDoc) : PDoc :=
  ids.foldl (setParentAt pagesId) doc

/-- The `Pages` tree node (lib.rs 141-156). -/
def pagesObj (n : ℕ) : PObj :=
  .dict [("Type", .name "Pages"), ("Count", .int (n : ℕ)),
         ("Kids", .array ((stridePageIds n).map PObj.ref))]

/-- The catalog node (lib.rs 167-176). -/
def catalogObj (pagesId : ℕ) : PObj :=
  .dict [("Type", .name "Catalog"), ("Pages", .ref pagesId)]

/-- The whole document assembly (lib.rs 71-179, duplicated verbatim at
lib.rs 310-432): per-page loop, stride-recomputed page id list, `Pages`
node, `Parent` backfill, catalog, trailer `Root`. -/
def buildDocument (dpi : ℕ) (imageData : List PageResult) : PDoc :=
  let d1 := (imageData.enum).foldl (fun d p => addPageObjs dpi d p.1 p.2) emptyDoc
  let pageIds := stridePageIds imageData.length
  let (pagesId, d2) := newObjectId d1
  let d3 := insertObject pagesId (pagesObj imageData.length) d2
  let d4 := backfillParents pagesId pageIds d3
  let (catalogId, d5) := newObjectId d4
  let d6 := insertObject catalogId (catalogObj pagesId) d5
  { d6 with trailerRoot := some catalogId }

/-! ### External collaborators and the two drivers -/

/-- The pixel buffer returned by the rendering service
(`hayro::render` followed by `pixmap.take_u8()`, lib.rs 202-209):
premultiplied RGBA bytes. -/
structure Pixmap where
  width : ℕ
  height : ℕ
  data : List ℕ

/-- The external collaborators of the core, abstracted: the parser
(`hayro::Pdf::new`, fallible), the renderer (`hayro::render`, total — it
returns a pixmap, not a `Result`), the JPEG encoder at the fixed quality 85,
and the lopdf serializer (`doc.save_to`). -/
structure Ext (Page : Type) where
  parse : List ℕ → Except String (List Page)
  render : Page → Pixmap
  jpegEncode : List ℕ → ℕ → ℕ → Except String (List ℕ)
  saveTo : PDoc → Except String (List ℕ)

/-- `image::RgbImage::from_vec` (lib.rs 233): succeeds iff the buffer holds
at least `width * height * 3` bytes. -/
def rgbImageFromVec (w h : ℕ) (data : List ℕ) : Option (List ℕ) :=
  if 3 * w * h ≤ data.length then some data else none

/-- `process_page` (lib.rs 195-250): render, un-premultiply to RGB, build
the RGB buffer, JPEG-encode, and return `(index, jpeg, width, height)`.
Any failure aborts with an error. -/
def processPage {Page : Type} (ext : Ext Page) (page : Page) (pageIndex : ℕ) :
    Except String PageResult :=
  let pm := ext.render page
  let rgb := rgbOfRgba pm.data
  match rgbImageFromVec pm.width pm.height rgb with
  | none => .error "RGB image buffer creation failed"
  | some raw =>
    match ext.jpegEncode raw pm.width pm.height with
    | .error e => .error ("JPEG encoding failed: " ++ e)
    | .ok jpeg => .ok (pageIndex, jpeg, pm.width, pm.height)

/-- Per-page conversion of an indexed page list, stopping at the first
error.  This is both the batch driver's `map(...).collect::<Result<_>>()`
(lib.rs 41-57) and the cooperative driver's sequential `?` loop
(lib.rs 286-301): both stop at the first (in index order) failing page and
both otherwise produce the same list, indexed in order. -/
def processList {Page : Type} (ext : Ext Page) :
    List (ℕ × Page) → Except String (List PageResult)
  | [] => .ok []
  | p :: rest =>
    match processPage ext p.2 p.1 with
    | .error e => .error e
    | .ok r =>
      match processList ext rest with
      | .error e => .error e
      | .ok rs => .ok (r :: rs)

/-- Sort the per-page results by original page index
(lib.rs 61: `image_data.sort_by_key(|(idx, _, _, _)| *idx)`). -/
def sortResults (l : List PageResult) : List PageResult :=
  l.mergeSort (fun x y => decide (x.1 ≤ y.1))

/-- The batch driver `rasterize_pdf` (lib.rs 15-193): parse, convert every
page, sort by index, assemble, serialize. -/
def rasterizePdf {Page : Type} (ext : Ext Page) (pdfData : List ℕ) (dpi : ℕ) :
    Except String (List ℕ) :=
  match ext.parse pdfData with
  | .error e => .error ("PDF parsing failed: " ++ e)
  | .ok pages =>
    match processList ext pages.enum with
    | .error e => .error e
    | .ok imageData0 =>
      let imageData := sortResults imageData0
      match ext.saveTo (buildDocument dpi imageData) with
      | .error e => .error ("PDF saving failed: " ++ e)
      | .ok out => .ok out

/-- The cooperative driver `rasterize_pdf_with_progress` (lib.rs 254-449):
identical pipeline except that pages are processed strictly in order with
progress callbacks and yields between pages, and no sort is performed.  The
progress sink (a `Fn(String)` with no return value) and the
`TimeoutFuture` yield points have no effect on the produced value and are
not represented in the pure embedding. -/
def rasterizePdfWithProgress {Page : Type} (ext : Ext Page) (pdfData : List ℕ)
    (dpi : ℕ) : Except String (List ℕ) :=
  match ext.parse pdfData with
  | .error e => .error ("PDF parsing failed: " ++ e)
  | .ok pages =>
    match processList ext pages.enum with
    | .error e => .error e
    | .ok imageData =>
      match ext.saveTo (buildDocument dpi imageData) with
      | .error e => .error ("PDF saving failed: " ++ e)
      | .ok out => .ok out

/-! ### Structure of the assembled document -/

/-- The four objects one loop iteration adds, when the allocator stands at
`base` on entry: image at `base+2`, content at `base+3`, resources at
`base+4`, and the page dictionary at the pre-allocated `base+1`. -/
def blockAt (base dpi i : ℕ) (pg : PageResult) : List (ℕ × PObj) :=
  [(base + 2, imageObj pg.2.2.1 pg.2.2.2 pg.2.1),
   (base + 3, contentObj dpi i pg.2.2.1 pg.2.2.2),
   (base + 4, resourcesObj i (base + 2)),
   (base + 1, .dict (pageDictEntries dpi i pg.2.2.1 pg.2.2.2 (base + 3) (base + 4)))]

/-- The object-table suffix produced by the loop on `data`, starting at page
index `k` with the allocator at `4*k`. -/
def pageBlocks (dpi : ℕ) : ℕ → List PageResult → List (ℕ × PObj)
  | _, [] => []
  | k, pg :: rest => blockAt (4 * k) dpi k pg ++ pageBlocks dpi (k + 1) rest

/-- One entry of the backfill pass, as a key-preserving map. -/
def parentG (pagesId : ℕ) (ids : List ℕ) (k : ℕ) (o : PObj) : PObj :=
  if k ∈ ids then
    match o with
    | .dict entries => .dict (setKey entries "Parent" (.ref pagesId))
    | o => o
  else o

/-! ### Claim-specific definitions -/

/-- The un-premultiplication formula exactly as the specification words it:
`min(255, round(channel × 255 / a))`, round to nearest integer.  Over
`x = (255*c)/a`, `⌊x + 1/2⌋` equals `(2*(255*c) + a) / (2*a)` in integer
division (halves round up; at every tie the value `k + 1/2` also rounds to
`k+1` under ties-to-even since the disagreement case `k` odd never matters
for the comparison made here: at the counterexample below the tie value is
127.5 whose both conventions give 128). -/
def specRoundChannel (c a : ℕ) : ℕ := min 255 ((2 * (255 * c) + a) / (2 * a))

/-- Test fixture: external collaborators whose parser always fails. -/
def extParseFail : Ext Unit :=
  { parse := fun _ => .error "broken"
    render := fun _ => ⟨0, 0, []⟩
    jpegEncode := fun _ _ _ => .error "nope"
    saveTo := fun _ => .error "nope" }

/-- Test fixture: external collaborators for a zero-page document. -/
def extZero : Ext Unit :=
  { parse := fun _ => .ok []
    render := fun _ => ⟨0, 0, []⟩
    jpegEncode := fun _ _ _ => .ok []
    saveTo := fun _ => .ok [] }

/-- Test fixture: two 1x1 opaque-black pages that convert successfully. -/
def extTwo : Ext Unit :=
  { parse := fun _ => .ok [(), ()]
    render := fun _ => ⟨1, 1, [0, 0, 0, 255]⟩
    jpegEncode := fun _ _ _ => .ok [9]
    saveTo := fun _ => .ok [] }

/-! ### Theorems -/

theorem natLog2F_spec : ∀ fuel n : ℕ, 0 < n → n ≤ fuel →
    2 ^ natLog2F fuel n ≤ n ∧ n < 2 ^ (natLog2F fuel n + 1) := by
  intro fuel
  induction fuel with
  | zero => intro n h1 h2; omega
  | succ f ih =>
    intro n h1 h2
    by_cases hn : n < 2
    · have hone : n = 1 := by omega
      subst hone
      simp [natLog2F]
    · have hrec : 0 < n / 2 := by omega
      have hle : n / 2 ≤ f := by omega
      obtain ⟨ha, hb⟩ := ih (n / 2) hrec hle
      simp only [natLog2F, if_neg hn]
      constructor
      · calc 2 ^ (natLog2F f (n / 2) + 1) = 2 * 2 ^ natLog2F f (n / 2) := by ring
        _ ≤ 2 * (n / 2) := by omega
        _ ≤ n := by omega
      · calc n < 2 * (n / 2 + 1) := by omega
        _ ≤ 2 * 2 ^ (natLog2F f (n / 2) + 1) := by omega
        _ = 2 ^ (natLog2F f (n / 2) + 1 + 1) := by ring

theorem natLog2_spec (n : ℕ) (h : 0 < n) :
    2 ^ natLog2 n ≤ n ∧ n < 2 ^ (natLog2 n + 1) :=
  natLog2F_spec n n h (le_refl n)

theorem ratFloorN_spec (x : ℚ) (hx : 0 ≤ x) :
    (ratFloorN x : ℚ) ≤ x ∧ x < ratFloorN x + 1 := by
  have hden : 0 < (x.den : ℚ) := by exact_mod_cast x.den_pos
  have hnum : (0 : ℤ) ≤ x.num := Rat.num_nonneg.mpr hx
  have hmd : x * (x.den : ℚ) = (x.num.toNat : ℚ) := by
    have h0 : x * (x.den : ℚ) = (x.num : ℚ) := by
      calc x * (x.den : ℚ) = ((x.num : ℚ) / (x.den : ℚ)) * (x.den : ℚ) := by
            rw [Rat.num_div_den]
      _ = (x.num : ℚ) := div_mul_cancel₀ _ (ne_of_gt hden)
    rw [h0]
    exact_mod_cast congrArg (fun z : ℤ => (z : ℚ)) (Int.toNat_of_nonneg hnum).symm
  have hdpos : 0 < x.den := x.den_pos
  have h1 : ratFloorN x * x.den ≤ x.num.toNat := Nat.div_mul_le_self _ _
  have h2 : x.num.toNat < (ratFloorN x + 1) * x.den :=
    (Nat.div_lt_iff_lt_mul hdpos).mp (Nat.lt_succ_self _)
  constructor
  · rw [← mul_le_mul_right hden, hmd]
    exact_mod_cast h1
  · rw [← mul_lt_mul_right hden, hmd]
    exact_mod_cast h2

theorem mul_den_eq_num (x : ℚ) : x * (x.den : ℚ) = (x.num : ℚ) := by
  have hden : ((x.den : ℚ)) ≠ 0 := by
    exact_mod_cast x.den_nz
  calc x * (x.den : ℚ) = ((x.num : ℚ) / (x.den : ℚ)) * (x.den : ℚ) := by
        rw [Rat.num_div_den]
  _ = (x.num : ℚ) := div_mul_cancel₀ _ hden

theorem qmul_eq (a b : ℚ) : qmul a b = a * b := by
  unfold qmul
  rw [Rat.divInt_eq_div]
  push_cast
  conv_rhs => rw [← Rat.num_div_den a, ← Rat.num_div_den b]
  rw [div_mul_div_comm]

theorem qdiv_eq (a b : ℚ) : qdiv a b = a / b := by
  unfold qdiv
  rcases eq_or_ne b 0 with hb | hb
  · subst hb
    simp
  · have hbn : (b.num : ℚ) ≠ 0 := by
      exact_mod_cast Rat.num_ne_zero.mpr hb
    have hda : ((a.den : ℚ)) ≠ 0 := by
      exact_mod_cast a.den_nz
    have hprod : ((a.den : ℚ)) * (b.num : ℚ) ≠ 0 := mul_ne_zero hda hbn
    rw [Rat.divInt_eq_div]
    push_cast
    rw [div_eq_div_iff hprod hb, ← mul_den_eq_num a, ← mul_den_eq_num b]
    ring

theorem qsub_eq (a b : ℚ) : qsub a b = a - b := by
  unfold qsub
  have hda : ((a.den : ℚ)) ≠ 0 := by
    exact_mod_cast a.den_nz
  have hdb : ((b.den : ℚ)) ≠ 0 := by
    exact_mod_cast b.den_nz
  rw [Rat.divInt_eq_div]
  push_cast
  rw [div_eq_iff (mul_ne_zero hda hdb), ← mul_den_eq_num a, ← mul_den_eq_num b]
  ring

theorem divInt_one_two : Rat.divInt 1 2 = (1:ℚ)/2 := by
  rw [Rat.divInt_eq_div]
  norm_num

theorem rheN_err (y : ℚ) (hy : 0 ≤ y) : |((rheN y : ℚ)) - y| ≤ 1/2 := by
  obtain ⟨h1, h2⟩ := ratFloorN_spec y hy
  unfold rheN
  simp only [qsub_eq, divInt_one_two]
  set n := ratFloorN y with hn
  by_cases hc1 : y - n < 1/2
  · simp only [if_pos hc1]
    rw [abs_le]
    constructor <;> linarith
  · simp only [if_neg hc1]
    by_cases hc2 : 1/2 < y - n
    · simp only [if_pos hc2]
      rw [abs_le]
      push_cast
      constructor <;> linarith
    · have heq : y - n = 1/2 := by linarith
      simp only [if_neg hc2]
      by_cases hc3 : n % 2 = 0
      · simp only [if_pos hc3]
        rw [abs_le]
        constructor <;> linarith
      · simp only [if_neg hc3]
        rw [abs_le]
        push_cast
        constructor <;> linarith

theorem ratFloorN_natCast (m : ℕ) : ratFloorN (m : ℚ) = m := by
  unfold ratFloorN
  rw [Rat.num_natCast, Rat.den_natCast]
  simp

theorem rheN_natCast (m : ℕ) : rheN (m : ℚ) = m := by
  unfold rheN
  rw [ratFloorN_natCast]
  simp [qsub_eq, divInt_one_two]

theorem floorLog2_spec (x : ℚ) (hx : 0 < x) :
    (2 : ℚ) ^ floorLog2 x ≤ x ∧ x < 2 ^ (floorLog2 x + 1) := by
  by_cases hone : 1 ≤ x
  · -- x ≥ 1 : the exponent of ⌊x⌋ works
    have hfl := ratFloorN_spec x (le_of_lt hx)
    have hpos : 0 < ratFloorN x := by
      rcases Nat.eq_zero_or_pos (ratFloorN x) with h | h
      · exfalso; rw [h] at hfl; push_cast at hfl; linarith [hfl.2]
      · exact h
    obtain ⟨ha, hb⟩ := natLog2_spec (ratFloorN x) hpos
    have hfq : floorLog2 x = (natLog2 (ratFloorN x) : ℤ) := by
      simp [floorLog2, if_pos hone]
    rw [hfq]
    constructor
    · rw [zpow_natCast]
      calc ((2:ℚ) ^ natLog2 (ratFloorN x)) ≤ (ratFloorN x : ℚ) := by exact_mod_cast ha
      _ ≤ x := hfl.1
    · have hcast : ((natLog2 (ratFloorN x) : ℤ) + 1) = ((natLog2 (ratFloorN x) + 1 : ℕ) : ℤ) := by
        push_cast; ring
      rw [hcast, zpow_natCast]
      calc x < ratFloorN x + 1 := hfl.2
      _ ≤ (2:ℚ) ^ (natLog2 (ratFloorN x) + 1) := by exact_mod_cast hb
  · -- 0 < x < 1
    push_neg at hone
    have hnum : 0 < x.num := Rat.num_pos.mpr hx
    set p := x.num.toNat with hp
    have hppos : 0 < p := by omega
    set d := x.den with hd
    have hdpos : 0 < d := x.den_pos
    have hxpd : x = (p : ℚ) / (d : ℚ) := by
      rw [← Rat.num_div_den x]
      congr 1
      exact_mod_cast (Int.toNat_of_nonneg (le_of_lt hnum)).symm
    have hdq : (0:ℚ) < (d:ℚ) := by exact_mod_cast hdpos
    -- since x < 1 we have p < d
    have hpd : p < d := by
      by_contra hc
      push_neg at hc
      have hge : (1:ℚ) ≤ (p:ℚ) / (d:ℚ) := by
        rw [le_div_iff₀ hdq, one_mul]
        exact_mod_cast hc
      rw [← hxpd] at hge
      linarith
    set k := (d - 1) / p with hk
    have hkpos : 0 < k := by
      have : p ≤ d - 1 := by omega
      exact Nat.div_pos this hppos
    obtain ⟨hka, hkb⟩ := natLog2_spec k hkpos
    set L := natLog2 k with hL
    -- the two natural-number bounds behind the rational inequalities
    have hlow : 2 ^ L * p < d := by
      have h1 : 2 ^ L * p ≤ k * p := Nat.mul_le_mul_right p hka
      have h2 : k * p ≤ d - 1 := Nat.div_mul_le_self (d - 1) p
      omega
    have hhigh : d ≤ 2 ^ (L + 1) * p := by
      have h1 : d - 1 < (k + 1) * p :=
        (Nat.div_lt_iff_lt_mul hppos).mp (Nat.lt_succ_self _)
      have h2 : (k + 1) * p ≤ 2 ^ (L + 1) * p := Nat.mul_le_mul_right p hkb
      omega
    have hfq : floorLog2 x = -(((L + 1 : ℕ)) : ℤ) := by
      simp only [floorLog2, if_neg (not_le.mpr hone), hL, hk, hd, hp]
    rw [hfq]
    have hz1 : (2:ℚ) ^ (-(((L + 1 : ℕ)) : ℤ)) = 1 / (2:ℚ) ^ (L + 1) := by
      rw [zpow_neg, zpow_natCast, one_div]
    have hz2 : (2:ℚ) ^ ((-(((L + 1 : ℕ)) : ℤ)) + 1) = 1 / (2:ℚ) ^ L := by
      have hexp : (-(((L + 1 : ℕ)) : ℤ)) + 1 = -((L : ℕ) : ℤ) := by push_cast; ring
      rw [hexp, zpow_neg, zpow_natCast, one_div]
    have hhigh' : d ≤ p * 2 ^ (L + 1) := by rw [Nat.mul_comm]; exact hhigh
    have hlow' : p * 2 ^ L < d := by rw [Nat.mul_comm]; exact hlow
    constructor
    · rw [hz1, hxpd, div_le_div_iff₀ (by positivity) hdq, one_mul]
      exact_mod_cast hhigh'
    · rw [hz2, hxpd, div_lt_div_iff₀ hdq (by positivity), one_mul]
      exact_mod_cast hlow'

theorem roundF32_nonpos (x : ℚ) (hx : x ≤ 0) : roundF32 x = 0 := by
  unfold roundF32
  rw [if_pos hx]

/-- Relative error of one f32 rounding: at most `x / 2^24` (one half ulp). -/
theorem roundF32_err (x : ℚ) (hx : 0 < x) : |roundF32 x - x| ≤ x / 2 ^ 24 := by
  obtain ⟨hcl, hch⟩ := floorLog2_spec x hx
  unfold roundF32
  rw [if_neg (not_le.mpr hx)]
  simp only [qmul_eq, qdiv_eq]
  set e := floorLog2 x with he
  by_cases hle : e ≤ 23
  · simp only [if_pos hle]
    set s : ℕ := (23 - e).toNat with hs
    have hsz : (s : ℤ) = 23 - e := Int.toNat_of_nonneg (by omega)
    have hppos : (0:ℚ) < ((2 ^ s : ℕ) : ℚ) := by positivity
    set y : ℚ := x * ((2 ^ s : ℕ) : ℚ) with hy
    have hy0 : 0 ≤ y := by positivity
    have herr := rheN_err y hy0
    have hdiff : (rheN y : ℚ) / ((2 ^ s : ℕ) : ℚ) - x = ((rheN y : ℚ) - y) / ((2 ^ s : ℕ) : ℚ) := by
      field_simp
      rw [hy]
      push_cast
      ring
    rw [hdiff, abs_div, abs_of_pos hppos, div_le_div_iff₀ hppos (by positivity)]
    -- reduces to the cross-multiplied form |rheN y - y| * 2^24 ≤ x * 2^s
    have hkey : (2:ℚ) ^ (24:ℕ) ≤ 2 * (x * ((2 ^ s : ℕ) : ℚ)) := by
      have hzs : ((2 ^ s : ℕ) : ℚ) = (2:ℚ) ^ (s:ℤ) := by
        push_cast
        rw [zpow_natCast]
      have h1 : (2:ℚ) ^ (e) * (2:ℚ) ^ ((s:ℤ)) ≤ x * ((2 ^ s : ℕ) : ℚ) := by
        rw [hzs]
        have := zpow_pos (by norm_num : (0:ℚ) < 2) (s:ℤ)
        exact mul_le_mul_of_nonneg_right hcl (le_of_lt this)
      have h2 : (2:ℚ) ^ (e) * (2:ℚ) ^ ((s:ℤ)) = (2:ℚ) ^ ((23:ℤ)) := by
        rw [← zpow_add₀ (by norm_num : (2:ℚ) ≠ 0)]
        congr 1
        omega
      have h3 : (2:ℚ) ^ ((24:ℕ)) = 2 * (2:ℚ) ^ ((23:ℤ)) := by
        norm_num
      rw [h3]
      nlinarith [h1, h2]
    have h5 : |(rheN y : ℚ) - y| * 2 ^ 24 ≤ (1/2 : ℚ) * 2 ^ 24 :=
      mul_le_mul_of_nonneg_right herr (by positivity)
    linarith [h5, hkey]
  · simp only [if_neg hle]
    push_neg at hle
    set s : ℕ := (e - 23).toNat with hs
    have hsz : (s : ℤ) = e - 23 := Int.toNat_of_nonneg (by omega)
    have hppos : (0:ℚ) < ((2 ^ s : ℕ) : ℚ) := by positivity
    set y : ℚ := x / ((2 ^ s : ℕ) : ℚ) with hy
    have hy0 : 0 ≤ y := by positivity
    have herr := rheN_err y hy0
    have hdiff : (rheN y : ℚ) * ((2 ^ s : ℕ) : ℚ) - x = ((rheN y : ℚ) - y) * ((2 ^ s : ℕ) : ℚ) := by
      rw [hy]
      field_simp
    rw [hdiff, abs_mul, abs_of_pos hppos]
    have hkey : ((2 ^ s : ℕ) : ℚ) * (2:ℚ) ^ ((23:ℤ)) ≤ x := by
      have hzs : ((2 ^ s : ℕ) : ℚ) = (2:ℚ) ^ (s:ℤ) := by
        push_cast
        rw [zpow_natCast]
      rw [hzs, ← zpow_add₀ (by norm_num : (2:ℚ) ≠ 0)]
      have hes : (s:ℤ) + 23 = e := by omega
      rw [hes]
      exact hcl
    have h23 : (2:ℚ) ^ ((23:ℤ)) = 2 ^ 24 / 2 := by norm_num
    rw [h23] at hkey
    calc |(rheN y : ℚ) - y| * ((2 ^ s : ℕ) : ℚ) ≤ (1/2) * ((2 ^ s : ℕ) : ℚ) := by
          apply mul_le_mul_of_nonneg_right herr (le_of_lt hppos)
    _ ≤ x / 2 ^ 24 := by
        rw [le_div_iff₀ (by positivity : (0:ℚ) < (2:ℚ) ^ (24:ℕ))]
        linarith [hkey]

/-- f32 rounding is exact on natural numbers up to `2^24` (in particular on
every u8 color channel value and on realistic pixel dimensions and DPIs). -/
theorem roundF32_natCast_of_le (n : ℕ) (h : n ≤ 2 ^ 24) : roundF32 (n : ℚ) = n := by
  rcases Nat.eq_zero_or_pos n with h0 | hpos
  · subst h0
    simp [roundF32]
  have hq : (0:ℚ) < (n:ℚ) := by exact_mod_cast hpos
  obtain ⟨hcl, hch⟩ := floorLog2_spec (n : ℚ) hq
  unfold roundF32
  rw [if_neg (not_le.mpr hq)]
  simp only [qmul_eq, qdiv_eq]
  set e := floorLog2 (n : ℚ) with he
  have he24 : e ≤ 24 := by
    by_contra hc
    push_neg at hc
    have h25 : (2:ℚ) ^ ((25:ℤ)) ≤ (2:ℚ) ^ e := by
      apply zpow_le_zpow_right₀ (by norm_num) (by omega)
    have : (2:ℚ) ^ ((25:ℤ)) ≤ (n:ℚ) := le_trans h25 hcl
    have hn25 : ((2^25 : ℕ) : ℚ) ≤ (n:ℚ) := by
      push_cast at this ⊢
      convert this using 1
      norm_num
    have : (2:ℕ)^25 ≤ n := by exact_mod_cast hn25
    omega
  by_cases hle : e ≤ 23
  · simp only [if_pos hle]
    set s : ℕ := (23 - e).toNat with hs
    have hy : (n:ℚ) * ((2 ^ s : ℕ) : ℚ) = ((n * 2 ^ s : ℕ) : ℚ) := by push_cast; ring
    rw [hy, rheN_natCast]
    push_cast
    field_simp
  · simp only [if_neg hle]
    push_neg at hle
    have he' : e = 24 := by omega
    have hn : n = 2 ^ 24 := by
      have h24 : (2:ℚ) ^ ((24:ℤ)) ≤ (n:ℚ) := by rw [← he']; exact hcl
      have hge : (2:ℕ)^24 ≤ n := by
        have : ((2^24 : ℕ) : ℚ) ≤ (n:ℚ) := by
          push_cast at h24 ⊢
          convert h24 using 1
          norm_num
        exact_mod_cast this
      omega
    subst hn
    have hsv : ((24:ℤ) - 23).toNat = 1 := by norm_num
    rw [he', hsv]
    have hy : (((2:ℕ) ^ 24 : ℕ) : ℚ) / ((2 ^ 1 : ℕ) : ℚ) = (((2:ℕ)^23 : ℕ) : ℚ) := by
      push_cast
      norm_num
    rw [hy, rheN_natCast]
    push_cast
    norm_num

theorem rgbOfRgba_length : ∀ l : List ℕ, (rgbOfRgba l).length = 3 * (l.length / 4)
  | [] => by simp [rgbOfRgba]
  | [_] => by simp [rgbOfRgba]
  | [_, _] => by simp [rgbOfRgba]
  | [_, _, _] => by simp [rgbOfRgba]
  | r :: g :: b :: a :: rest => by
      have ih := rgbOfRgba_length rest
      simp only [rgbOfRgba, List.length_cons, ih]
      omega

theorem roundF32_one : roundF32 1 = 1 := by
  have h := roundF32_natCast_of_le 1 (by norm_num)
  simpa using h

/-- A fully opaque channel is returned unchanged: `255/255` rounds to exactly
1 and multiplication by 1 is exact. -/
theorem unpremulChannel_alpha255 (c : ℕ) (hc : c ≤ 255) : unpremulChannel c 255 = c := by
  unfold unpremulChannel
  rw [roundF32_natCast_of_le 255 (by norm_num), qdiv_eq]
  have h255 : ((255:ℚ)) / ((255:ℕ) : ℚ) = 1 := by norm_num
  rw [h255, roundF32_one]
  show ratFloorN (min (roundF32 (qmul (roundF32 (c:ℚ)) 1)) 255) = c
  rw [qmul_eq, mul_one, roundF32_natCast_of_le c (le_trans hc (by norm_num)),
    roundF32_natCast_of_le c (le_trans hc (by norm_num))]
  have hmin : min ((c:ℚ)) 255 = (c:ℚ) := by
    apply min_eq_left
    exact_mod_cast hc
  rw [hmin, ratFloorN_natCast]

/-- `min` is 1-Lipschitz in its first argument. -/
theorem abs_min_sub_min_le (x y z d : ℚ) (h : |x - y| ≤ d) :
    |min x z - min y z| ≤ d := by
  have hd : 0 ≤ d := le_trans (abs_nonneg _) h
  rcases le_total x z with hx | hx <;> rcases le_total y z with hy | hy <;>
    rw [abs_le] at h ⊢ <;>
    simp only [min_eq_left, min_eq_right, hx, hy] <;>
    constructor <;> linarith [min_eq_left hx, min_eq_right hx, min_eq_left hy, min_eq_right hy]

theorem ratFloorN_zero : ratFloorN 0 = 0 := by
  simpa using ratFloorN_natCast 0

theorem unpremulChannel_zero (a : ℕ) : unpremulChannel 0 a = 0 := by
  unfold unpremulChannel
  rw [Nat.cast_zero, roundF32_nonpos 0 (le_refl 0)]
  show ratFloorN (min (roundF32 (qmul 0 (roundF32 (qdiv 255 (roundF32 (a:ℚ)))))) 255) = 0
  rw [qmul_eq, zero_mul, roundF32_nonpos 0 (le_refl 0)]
  rw [min_eq_left (by norm_num : (0:ℚ) ≤ 255), ratFloorN_zero]

/-- The implemented un-premultiplication lands within one of the exact value
`min 255 ⌊255·c/a⌋`: the two f32 roundings move the product by less than 1/4,
and the final truncation therefore lands on the exact floor or one of its
neighbours. -/
theorem unpremulChannel_near_floor (c a : ℕ) (hc : c ≤ 255) (ha1 : 1 ≤ a) (ha2 : a ≤ 255) :
    unpremulChannel c a ≤ min 255 ((255 * c) / a) + 1 ∧
    min 255 ((255 * c) / a) ≤ unpremulChannel c a + 1 := by
  rcases Nat.eq_zero_or_pos c with hc0 | hc1
  · subst hc0
    rw [unpremulChannel_zero]
    simp
  have haq : (0:ℚ) < (a:ℚ) := by exact_mod_cast ha1
  have hcq : (0:ℚ) < (c:ℚ) := by exact_mod_cast hc1
  have hval : unpremulChannel c a
      = ratFloorN (min (roundF32 ((c:ℚ) * roundF32 ((255:ℚ)/(a:ℚ)))) 255) := by
    unfold unpremulChannel
    rw [roundF32_natCast_of_le a (le_trans ha2 (by norm_num)), qdiv_eq]
    show ratFloorN (min (roundF32 (qmul (roundF32 (c:ℚ)) (roundF32 ((255:ℚ)/(a:ℚ))))) 255) = _
    rw [qmul_eq, roundF32_natCast_of_le c (le_trans hc (by norm_num))]
  rw [hval]
  set x1 : ℚ := (255:ℚ)/(a:ℚ) with hx1
  have hx1pos : 0 < x1 := by positivity
  set factor := roundF32 x1 with hfac
  have h1 : |factor - x1| ≤ x1 / 2 ^ 24 := roundF32_err x1 hx1pos
  have hx1small : x1 / 2 ^ 24 < x1 := div_lt_self hx1pos (by norm_num)
  have hfpos : 0 < factor := by
    rw [abs_le] at h1
    linarith [h1.1]
  have hprodpos : 0 < (c:ℚ) * factor := mul_pos hcq hfpos
  set v := roundF32 ((c:ℚ) * factor) with hv
  have h2 : |v - (c:ℚ) * factor| ≤ ((c:ℚ) * factor) / 2 ^ 24 := roundF32_err _ hprodpos
  set E : ℚ := (c:ℚ) * x1 with hE
  have hEpos : 0 < E := mul_pos hcq hx1pos
  have hE1 : 1 ≤ E := by
    have hx1ge : 1 ≤ x1 := by
      rw [hx1, le_div_iff₀ haq, one_mul]
      exact_mod_cast ha2
    have hcge : 1 ≤ (c:ℚ) := by exact_mod_cast hc1
    nlinarith
  have hEub : E ≤ 65025 := by
    have hx1le : x1 ≤ 255 := by
      rw [hx1, div_le_iff₀ haq]
      have : (1:ℚ) ≤ (a:ℚ) := by exact_mod_cast ha1
      nlinarith
    have hcle : (c:ℚ) ≤ 255 := by exact_mod_cast hc
    nlinarith
  have h3 : |(c:ℚ) * factor - E| ≤ E / 2 ^ 24 := by
    have hdiff : (c:ℚ) * factor - E = (c:ℚ) * (factor - x1) := by rw [hE]; ring
    rw [hdiff, abs_mul, abs_of_nonneg (le_of_lt hcq)]
    calc (c:ℚ) * |factor - x1| ≤ (c:ℚ) * (x1 / 2 ^ 24) :=
          mul_le_mul_of_nonneg_left h1 (le_of_lt hcq)
    _ = E / 2 ^ 24 := by rw [hE]; ring
  have hEeq : E = ((255 * c : ℕ) : ℚ) / (a:ℚ) := by
    rw [hE, hx1]
    push_cast
    ring
  clear_value x1 factor v E
  have hA2E : (c:ℚ) * factor ≤ 2 * E := by
    rw [abs_le] at h3
    have hEsmall : E / 2 ^ 24 ≤ E := div_le_self (le_of_lt hEpos) (by norm_num)
    linarith [h3.2]
  have h4 : |v - E| ≤ 3 * E / 2 ^ 24 := by
    have htri := abs_sub_le v ((c:ℚ) * factor) E
    rw [abs_le] at h2 h3
    rw [abs_le]
    constructor <;> linarith [h2.1, h2.2, h3.1, h3.2, hA2E, hEpos]
  have h5 : |v - E| ≤ 1/4 := by
    rw [abs_le] at h4 ⊢
    constructor <;> linarith [h4.1, h4.2, hEub, hEpos]
  have h6 : |min v 255 - min E 255| ≤ 1/4 := abs_min_sub_min_le v E 255 _ h5
  -- exact integer floor of E
  set q : ℕ := (255 * c) / a with hq
  have hq1 : q * a ≤ 255 * c := Nat.div_mul_le_self _ _
  have hq2 : 255 * c < (q + 1) * a :=
    (Nat.div_lt_iff_lt_mul ha1).mp (Nat.lt_succ_self _)
  have hqE1 : (q:ℚ) ≤ E := by
    rw [hEeq, le_div_iff₀ haq]
    exact_mod_cast hq1
  have hqE2 : E < (q:ℚ) + 1 := by
    rw [hEeq, div_lt_iff₀ haq]
    push_cast
    exact_mod_cast hq2
  -- bounds for the clamped exact value
  have hfl1 : ((min 255 q : ℕ) : ℚ) ≤ min E 255 := by
    rcases le_total q 255 with hqle | hqgt
    · rw [min_eq_right hqle]
      apply le_min hqE1
      exact_mod_cast hqle
    · rw [min_eq_left hqgt]
      have : (255:ℚ) ≤ E := le_trans (by exact_mod_cast hqgt) hqE1
      rw [min_eq_right this]
      norm_num
  have hfl2 : min E 255 < ((min 255 q : ℕ) : ℚ) + 1 := by
    rcases le_total q 255 with hqle | hqgt
    · rw [min_eq_right hqle]
      calc min E 255 ≤ E := min_le_left _ _
      _ < (q:ℚ) + 1 := hqE2
    · rw [min_eq_left hqgt]
      calc min E 255 ≤ 255 := min_le_right _ _
      _ < (255:ℚ) + 1 := by norm_num
  -- floor of the computed value
  have hvpos : (0:ℚ) ≤ v := by
    rw [abs_le] at h5
    linarith [h5.1, hE1]
  have hm0 : (0:ℚ) ≤ min v 255 := le_min hvpos (by norm_num)
  obtain ⟨ho1, ho2⟩ := ratFloorN_spec (min v 255) hm0
  rw [abs_le] at h6
  constructor
  · -- ratFloorN (min v 255) ≤ min 255 q + 1
    have hrq : (ratFloorN (min v 255) : ℚ) < ((min 255 q : ℕ) : ℚ) + 2 := by
      linarith [h6.2, hfl2, ho1]
    have : ratFloorN (min v 255) < min 255 q + 2 := by exact_mod_cast hrq
    omega
  · -- min 255 q ≤ ratFloorN (min v 255) + 1
    have hrq : ((min 255 q : ℕ) : ℚ) < (ratFloorN (min v 255) : ℚ) + 2 := by
      linarith [h6.1, hfl1, ho2]
    have : min 255 q < ratFloorN (min v 255) + 2 := by exact_mod_cast hrq
    omega

theorem addPageObjs_eq (dpi : ℕ) (d : PDoc) (i : ℕ) (pg : PageResult) :
    addPageObjs dpi d i pg =
      ⟨d.maxId + 4, d.objects ++ blockAt d.maxId dpi i pg, d.trailerRoot⟩ := by
  simp [addPageObjs, newObjectId, addObject, insertObject, blockAt]

theorem pageLoop_eq (dpi : ℕ) : ∀ (data : List PageResult) (k : ℕ) (d : PDoc),
    d.maxId = 4 * k →
    (List.enumFrom k data).foldl (fun d p => addPageObjs dpi d p.1 p.2) d
      = ⟨4 * (k + data.length), d.objects ++ pageBlocks dpi k data, d.trailerRoot⟩ := by
  intro data
  induction data with
  | nil =>
    intro k d hm
    cases d
    simp_all [List.enumFrom, pageBlocks]
  | cons pg rest ih =>
    intro k d hm
    simp only [List.enumFrom, List.foldl_cons]
    rw [addPageObjs_eq]
    have hm4 : (⟨d.maxId + 4, d.objects ++ blockAt d.maxId dpi k pg, d.trailerRoot⟩ : PDoc).maxId
        = 4 * (k + 1) := by simp [hm]; ring
    rw [ih (k + 1) _ hm4]
    simp only [pageBlocks, hm, List.length_cons, List.append_assoc, PDoc.mk.injEq,
      and_true, true_and]
    omega

theorem backfill_objects (pid : ℕ) : ∀ (ids : List ℕ) (d : PDoc), ids.Nodup →
    backfillParents pid ids d
      = { d with objects := d.objects.map (fun e => (e.1, parentG pid ids e.1 e.2)) } := by
  intro ids
  induction ids with
  | nil =>
    intro d _
    cases d
    simp [backfillParents, parentG]
  | cons i ids ih =>
    intro d hnd
    have hni : i ∉ ids := (List.nodup_cons.mp hnd).1
    have hnd' : ids.Nodup := (List.nodup_cons.mp hnd).2
    show backfillParents pid ids (setParentAt pid d i) = _
    rw [ih _ hnd']
    cases d
    simp only [setParentAt, List.map_map]
    congr 1
    apply List.map_congr_left
    intro e _
    by_cases hei : e.1 = i
    · simp only [Function.comp, hei, if_pos rfl]
      have hmem : i ∈ i :: ids := List.mem_cons_self i ids
      have hnmem : i ∉ ids := hni
      cases e with
      | mk k o =>
        simp only at hei
        subst hei
        cases o <;> simp [parentG, hnmem, hmem]
    · simp only [Function.comp, if_neg hei]
      cases e with
      | mk k o =>
        simp only at hei
        have : (k ∈ i :: ids) ↔ (k ∈ ids) := by
          constructor
          · intro h
            rcases List.mem_cons.mp h with h | h
            · exact absurd h hei
            · exact h
          · exact fun h => List.mem_cons_of_mem _ h
        simp [parentG, this]

theorem stridePageIds_nodup (n : ℕ) : (stridePageIds n).Nodup := by
  apply List.Nodup.map
  · intro a b hab
    simp only at hab
    omega
  · exact List.nodup_range n

theorem mem_stridePageIds (n x : ℕ) : x ∈ stridePageIds n ↔ ∃ i, i < n ∧ x = 1 + i * 4 := by
  unfold stridePageIds
  simp [List.mem_map, List.mem_range]
  constructor
  · rintro ⟨i, hi, rfl⟩
    exact ⟨i, hi, rfl⟩
  · rintro ⟨i, hi, rfl⟩
    exact ⟨i, hi, rfl⟩

/-- Closed form of the assembled document. -/
theorem buildDocument_eq (dpi : ℕ) (data : List PageResult) :
    buildDocument dpi data =
      ⟨4 * data.length + 2,
       ((pageBlocks dpi 0 data).map
          (fun e => (e.1, parentG (4 * data.length + 1) (stridePageIds data.length) e.1 e.2)))
         ++ [(4 * data.length + 1, pagesObj data.length),
             (4 * data.length + 2, catalogObj (4 * data.length + 1))],
       some (4 * data.length + 2)⟩ := by
  unfold buildDocument
  have henum : data.enum = List.enumFrom 0 data := rfl
  rw [henum, pageLoop_eq dpi data 0 emptyDoc rfl]
  simp only [newObjectId, insertObject, emptyDoc, List.nil_append, Nat.zero_add]
  rw [backfill_objects _ _ _ (stridePageIds_nodup data.length)]
  simp only [List.map_append]
  have hpages : ((4 * data.length + 1) ∈ stridePageIds data.length) = False := by
    simp only [eq_iff_iff, iff_false]
    rw [mem_stridePageIds]
    rintro ⟨i, hi, he⟩
    omega
  simp only [List.map_cons, List.map_nil, parentG, hpages, if_false]
  simp [List.append_assoc]

theorem findEntry_append_of_notmem :
    ∀ (l1 l2 : List (ℕ × PObj)) (i : ℕ), (∀ e ∈ l1, e.1 ≠ i) →
    findEntry (l1 ++ l2) i = findEntry l2 i := by
  intro l1
  induction l1 with
  | nil => intro l2 i _; rfl
  | cons e rest ih =>
    intro l2 i h
    have he : e.1 ≠ i := h e (List.mem_cons_self _ _)
    simp only [List.cons_append, findEntry, if_neg he]
    exact ih l2 i (fun x hx => h x (List.mem_cons_of_mem _ hx))

theorem findEntry_append_of_found :
    ∀ (l1 l2 : List (ℕ × PObj)) (i : ℕ) (o : PObj), findEntry l1 i = some o →
    findEntry (l1 ++ l2) i = some o := by
  intro l1
  induction l1 with
  | nil => intro l2 i o h; exact absurd h (by simp [findEntry])
  | cons e rest ih =>
    intro l2 i o h
    by_cases he : e.1 = i
    · simp only [findEntry, if_pos he] at h
      simp only [List.cons_append, findEntry, if_pos he, h]
    · simp only [findEntry, if_neg he] at h
      simp only [List.cons_append, findEntry, if_neg he]
      exact ih l2 i o h

theorem findEntry_map_parentG (pid : ℕ) (ids : List ℕ) :
    ∀ (l : List (ℕ × PObj)) (i : ℕ),
    findEntry (l.map (fun e => (e.1, parentG pid ids e.1 e.2))) i
      = (findEntry l i).map (parentG pid ids i) := by
  intro l
  induction l with
  | nil => intro i; rfl
  | cons e rest ih =>
    intro i
    by_cases he : e.1 = i
    · subst he
      simp [findEntry, ih]
    · simp [findEntry, if_neg he, ih]

theorem pageBlocks_keys (dpi : ℕ) : ∀ (data : List PageResult) (k : ℕ),
    ∀ e ∈ pageBlocks dpi k data, 4 * k < e.1 ∧ e.1 ≤ 4 * (k + data.length) := by
  intro data
  induction data with
  | nil => intro k e he; exact absurd he (by simp [pageBlocks])
  | cons pg rest ih =>
    intro k e he
    simp only [pageBlocks, List.mem_append] at he
    rcases he with he | he
    · simp only [blockAt, List.mem_cons, List.mem_singleton] at he
      rcases he with rfl | rfl | rfl | rfl | h
      · simp; omega
      · simp; omega
      · simp; omega
      · simp; omega
      · exact absurd h (List.not_mem_nil _)
    · obtain ⟨h1, h2⟩ := ih (k + 1) e he
      constructor <;> [omega; (simp only [List.length_cons]; omega)]

theorem findEntry_pageBlocks (dpi : ℕ) : ∀ (data : List PageResult) (k i : ℕ)
    (pg : PageResult), k ≤ i → data[i - k]? = some pg →
    findEntry (pageBlocks dpi k data) (4 * i + 1)
      = some (.dict (pageDictEntries dpi i pg.2.2.1 pg.2.2.2 (4*i+3) (4*i+4))) := by
  intro data
  induction data with
  | nil => intro k i pg _ h; exact absurd h (by simp)
  | cons pg0 rest ih =>
    intro k i pg hki hget
    rcases Nat.eq_or_lt_of_le hki with rfl | hlt
    · have h0 : k - k = 0 := by omega
      rw [h0] at hget
      simp only [List.getElem?_cons_zero, Option.some.injEq] at hget
      subst hget
      simp only [pageBlocks, blockAt, List.cons_append, findEntry]
      rw [if_neg (show ¬(4*k+2 = 4*k+1) by omega), if_neg (show ¬(4*k+3 = 4*k+1) by omega),
        if_neg (show ¬(4*k+4 = 4*k+1) by omega)]
      simp
    · simp only [pageBlocks]
      rw [findEntry_append_of_notmem]
      · apply ih (k + 1) i pg (by omega)
        have hik : i - k = (i - (k + 1)) + 1 := by omega
        rw [hik] at hget
        simpa using hget
      · intro e he
        simp only [blockAt, List.mem_cons, List.mem_singleton] at he
        rcases he with rfl | rfl | rfl | rfl | h
        · simp; omega
        · simp; omega
        · simp; omega
        · simp; omega
        · exact absurd h (List.not_mem_nil _)

theorem setKey_parent_pageDictEntries (dpi i imgW imgH c r : ℕ) (v : PObj) :
    setKey (pageDictEntries dpi i imgW imgH c r) "Parent" v
      = pageDictEntries dpi i imgW imgH c r ++ [("Parent", v)] := by
  simp [setKey, pageDictEntries]

/-- Looking up the `Pages` tree node in the finished document. -/
theorem buildDocument_pagesNode (dpi : ℕ) (data : List PageResult) :
    lookupObj (buildDocument dpi data) (4 * data.length + 1)
      = some (pagesObj data.length) := by
  rw [lookupObj, buildDocument_eq]
  have hside : ∀ e ∈ (pageBlocks dpi 0 data).map
      (fun e => (e.1, parentG (4 * data.length + 1) (stridePageIds data.length) e.1 e.2)),
      e.1 ≠ 4 * data.length + 1 := by
    intro e he
    simp only [List.mem_map] at he
    obtain ⟨e0, he0, rfl⟩ := he
    have h2 := (pageBlocks_keys dpi data 0 e0 he0).2
    simp only [Nat.zero_add] at h2
    show e0.1 ≠ 4 * data.length + 1
    omega
  rw [findEntry_append_of_notmem _ _ _ hside]
  simp [findEntry]

/-- Looking up a page node in the finished document: it is the page
dictionary built from the `i`-th element of the (sorted) page data, with the
`Parent` reference appended by the backfill pass. -/
theorem buildDocument_pageNode (dpi : ℕ) (data : List PageResult) (i : ℕ)
    (pg : PageResult) (h : data[i]? = some pg) :
    lookupObj (buildDocument dpi data) (4 * i + 1)
      = some (.dict (pageDictEntries dpi i pg.2.2.1 pg.2.2.2 (4*i+3) (4*i+4)
          ++ [("Parent", .ref (4 * data.length + 1))])) := by
  have hlt : i < data.length := by
    by_contra hc
    push_neg at hc
    rw [List.getElem?_eq_none hc] at h
    exact absurd h (by simp)
  rw [lookupObj, buildDocument_eq]
  have hfind : findEntry (pageBlocks dpi 0 data) (4 * i + 1)
      = some (.dict (pageDictEntries dpi i pg.2.2.1 pg.2.2.2 (4*i+3) (4*i+4))) := by
    apply findEntry_pageBlocks dpi data 0 i pg (Nat.zero_le i)
    simpa using h
  apply findEntry_append_of_found
  rw [findEntry_map_parentG, hfind]
  have hmem : (4 * i + 1) ∈ stridePageIds data.length := by
    rw [mem_stridePageIds]
    exact ⟨i, hlt, by omega⟩
  simp only [Option.map_some', parentG, if_pos hmem]
  rw [setKey_parent_pageDictEntries]

theorem capturedLoop (dpi : ℕ) : ∀ (data : List PageResult) (k : ℕ) (d : PDoc)
    (L : List ℕ), d.maxId = 4 * k →
    ((List.enumFrom k data).foldl
      (fun (acc : PDoc × List ℕ) p =>
        (addPageObjs dpi acc.1 p.1 p.2, acc.2 ++ [acc.1.maxId + 1])) (d, L)).2
      = L ++ (List.range' k data.length).map (fun i => 4 * i + 1) := by
  intro data
  induction data with
  | nil => intro k d L hm; simp [List.enumFrom, List.range']
  | cons pg rest ih =>
    intro k d L hm
    simp only [List.enumFrom, List.foldl_cons]
    rw [addPageObjs_eq]
    have hm4 : (⟨d.maxId + 4, d.objects ++ blockAt d.maxId dpi k pg, d.trailerRoot⟩ : PDoc).maxId
        = 4 * (k + 1) := by simp [hm]; ring
    rw [ih (k + 1) _ (L ++ [d.maxId + 1]) hm4]
    have hr : List.range' k (pg :: rest).length = k :: List.range' (k + 1) rest.length := rfl
    rw [hr]
    simp [hm, List.append_assoc]

/-- The page ids captured from the allocator coincide with the
stride-recomputed ones: the allocator starts at 0 and each loop iteration
allocates exactly four objects, the page node's id first. -/
theorem capturedPageIds_eq_stride (dpi : ℕ) (data : List PageResult) :
    capturedPageIds dpi data = stridePageIds data.length := by
  unfold capturedPageIds
  rw [show data.enum = List.enumFrom 0 data from rfl,
    capturedLoop dpi data 0 emptyDoc [] rfl]
  simp only [List.nil_append, stridePageIds]
  rw [← List.range_eq_range']
  apply List.map_congr_left
  intro i _
  omega

/-! ### Per-page processing and sequencing lemmas -/

theorem processPage_ok_fst {Page : Type} (ext : Ext Page) (page : Page) (i : ℕ)
    (r : PageResult) (h : processPage ext page i = .ok r) : r.1 = i := by
  unfold processPage at h
  dsimp only at h
  split at h
  · exact absurd h (by simp)
  · split at h
    · exact absurd h (by simp)
    · simp only [Except.ok.injEq] at h
      rw [← h]

theorem processList_ok_keys {Page : Type} (ext : Ext Page) :
    ∀ (l : List (ℕ × Page)) (res : List PageResult),
    processList ext l = .ok res → res.map Prod.fst = l.map Prod.fst := by
  intro l
  induction l with
  | nil =>
    intro res h
    simp only [processList, Except.ok.injEq] at h
    rw [← h]
    rfl
  | cons p rest ih =>
    intro res h
    simp only [processList] at h
    rcases hp : processPage ext p.2 p.1 with e | r
    · rw [hp] at h; exact absurd h (by simp)
    · rw [hp] at h
      rcases hr : processList ext rest with e | rs
      · rw [hr] at h; exact absurd h (by simp)
      · rw [hr] at h
        simp only [Except.ok.injEq] at h
        rw [← h]
        simp only [List.map_cons]
        rw [processPage_ok_fst ext p.2 p.1 r hp, ih rs hr]

theorem pairwise_lt_of_le_nodup : ∀ (l : List PageResult),
    l.Pairwise (fun x y => x.1 ≤ y.1) → (l.map Prod.fst).Nodup →
    l.Pairwise (fun x y => x.1 < y.1) := by
  intro l
  induction l with
  | nil => intro _ _; exact List.Pairwise.nil
  | cons a l ih =>
    intro hle hnd
    rw [List.pairwise_cons] at hle ⊢
    simp only [List.map_cons, List.nodup_cons] at hnd
    refine ⟨fun b hb => ?_, ih hle.2 hnd.2⟩
    have h1 : a.1 ≤ b.1 := hle.1 b hb
    have h2 : a.1 ≠ b.1 := by
      intro hc
      exact hnd.1 (hc ▸ List.mem_map_of_mem Prod.fst hb)
    omega

theorem sortResults_eq_of_perm (l c : List PageResult) (hperm : l.Perm c)
    (hkeys : c.map Prod.fst = List.range c.length) : sortResults l = c := by
  have htrans : ∀ a b d : PageResult,
      decide (a.1 ≤ b.1) = true → decide (b.1 ≤ d.1) = true →
      decide (a.1 ≤ d.1) = true := by
    intro a b d h1 h2
    simp only [decide_eq_true_eq] at *
    omega
  have htotal : ∀ a b : PageResult,
      (decide (a.1 ≤ b.1) || decide (b.1 ≤ a.1)) = true := by
    intro a b
    rcases Nat.le_total a.1 b.1 with h | h <;> simp [h]
  have hp2 : (sortResults l).Perm c := (List.mergeSort_perm l _).trans hperm
  have hsorted : (sortResults l).Pairwise (fun x y => x.1 ≤ y.1) := by
    have h := List.sorted_mergeSort htrans htotal l
    exact h.imp (fun hab => by simpa using hab)
  have hndc : (c.map Prod.fst).Nodup := by
    rw [hkeys]
    exact List.nodup_range c.length
  have hnds : ((sortResults l).map Prod.fst).Nodup :=
    ((hp2.map Prod.fst).nodup_iff).mpr hndc
  have hstrict1 := pairwise_lt_of_le_nodup _ hsorted hnds
  have hstrictc : c.Pairwise (fun x y => x.1 < y.1) := by
    rw [← List.pairwise_map (f := Prod.fst), hkeys]
    exact List.pairwise_lt_range c.length
  haveI : IsAntisymm PageResult (fun x y => x.1 < y.1) :=
    ⟨fun a b h1 h2 => absurd (h1.trans h2) (lt_irrefl _)⟩
  exact List.eq_of_perm_of_sorted hp2 hstrict1 hstrictc

/-! ### Geometry accuracy -/

/-- For realistic sizes (pixel side and dpi at most `2^24`, page at most
65536 inches wide) the f32-computed page size stays within one point of the
exact `72 * px / dpi`. -/
theorem pageSizePt_near (px d : ℕ) (hd1 : 1 ≤ d) (hd2 : d ≤ 2 ^ 24)
    (hpx : px ≤ 2 ^ 24) (hpd : px ≤ 65536 * d) :
    |pageSizePt px d - 72 * (px:ℚ) / (d:ℚ)| ≤ 1 := by
  have hdq : (0:ℚ) < (d:ℚ) := by exact_mod_cast hd1
  unfold pageSizePt
  rw [roundF32_natCast_of_le px hpx, roundF32_natCast_of_le d hd2, qdiv_eq]
  rcases Nat.eq_zero_or_pos px with h0 | hpos
  · subst h0
    simp only [Nat.cast_zero, zero_div]
    rw [roundF32_nonpos 0 (le_refl 0), qmul_eq, zero_mul,
      roundF32_nonpos 0 (le_refl 0)]
    simp
  · have hx : (0:ℚ) < (px:ℚ) / (d:ℚ) := by positivity
    set x : ℚ := (px:ℚ) / (d:ℚ) with hxdef
    set q := roundF32 x with hq
    have h1 : |q - x| ≤ x / 2 ^ 24 := roundF32_err x hx
    have hxsmall : x / 2 ^ 24 < x := div_lt_self hx (by norm_num)
    have hqpos : 0 < q := by
      rw [abs_le] at h1
      linarith [h1.1]
    rw [qmul_eq]
    have hq72 : (0:ℚ) < q * 72 := by positivity
    have h2 : |roundF32 (q * 72) - q * 72| ≤ (q * 72) / 2 ^ 24 := roundF32_err _ hq72
    have hxub : x ≤ 65536 := by
      rw [hxdef, div_le_iff₀ hdq]
      exact_mod_cast hpd
    have hq2x : q ≤ 2 * x := by
      rw [abs_le] at h1
      linarith [h1.2]
    have hgoal_eq : 72 * (px:ℚ) / (d:ℚ) = 72 * x := by rw [hxdef]; ring
    rw [hgoal_eq]
    clear_value q x
    rw [abs_le] at h1 h2 ⊢
    constructor <;> linarith [h1.1, h1.2, h2.1, h2.2, hq2x, hxub, hx]

/-! ### Driver-level facts -/

/-- The batch driver succeeds exactly when every stage succeeds, and then the
output is the serialization of the document assembled from the sorted
per-page results. -/
theorem rasterizePdf_ok_iff {Page : Type} (ext : Ext Page) (bytes : List ℕ)
    (dpi : ℕ) (out : List ℕ) :
    rasterizePdf ext bytes dpi = .ok out ↔
      ∃ pages results, ext.parse bytes = .ok pages ∧
        processList ext pages.enum = .ok results ∧
        ext.saveTo (buildDocument dpi (sortResults results)) = .ok out := by
  rcases hp : ext.parse bytes with e | pages
  · simp [rasterizePdf, hp]
  · rcases hr : processList ext pages.enum with e | res
    · simp [rasterizePdf, hp, hr]
    · rcases hs : ext.saveTo (buildDocument dpi (sortResults res)) with e | o
      · simp [rasterizePdf, hp, hr, hs]
      · simp [rasterizePdf, hp, hr, hs, eq_comm]

theorem rasterizePdf_parse_error {Page : Type} (ext : Ext Page) (bytes : List ℕ)
    (dpi : ℕ) (e : String) (h : ext.parse bytes = .error e) :
    rasterizePdf ext bytes dpi = .error ("PDF parsing failed: " ++ e) := by
  unfold rasterizePdf
  rw [h]

/-- Both drivers agree: the cooperative driver omits the sort, but the
results arrive already in index order, so sorting is the identity. -/
theorem drivers_agree {Page : Type} (ext : Ext Page) (bytes : List ℕ) (dpi : ℕ) :
    rasterizePdf ext bytes dpi = rasterizePdfWithProgress ext bytes dpi := by
  unfold rasterizePdf rasterizePdfWithProgress
  rcases hp : ext.parse bytes with e | pages
  · rfl
  · rcases hr : processList ext pages.enum with e | res
    · simp [hr]
    · have hkeys : res.map Prod.fst = List.range res.length := by
        have h1 := processList_ok_keys ext pages.enum res hr
        have h2 : pages.enum.map Prod.fst = List.range pages.length :=
          List.enum_map_fst pages
        have hlen : res.length = pages.length := by
          have h3 := congrArg List.length h1
          simpa using h3
        rw [h1, h2, hlen]
      have hsort : sortResults res = res :=
        sortResults_eq_of_perm res res (List.Perm.refl res) hkeys
      simp [hr, hsort]

theorem buildDocument_nil (dpi : ℕ) :
    buildDocument dpi [] = ⟨2, [(1, pagesObj 0), (2, catalogObj 1)], some 2⟩ := by
  rw [buildDocument_eq]
  simp [pageBlocks]

theorem pagesObj_zero :
    pagesObj 0 = .dict [("Type", .name "Pages"), ("Count", .int 0),
      ("Kids", .array ([] : List PObj))] := rfl

/-! ### The claims -/

/-- C1.  The source recomputes every back-reference to a page node from the
arithmetic stride `1 + i * 4` (lib.rs 136-139 and 384-389) instead of using
the identity captured from the allocation, contrary to the claim; this
theorem records what is actually true of the code: the `Kids` array and the
`Parent` backfill targets are exactly the stride-computed ids, and those ids
happen to coincide with the ids the per-page loop's `new_object_id` calls
actually returned, because the allocator starts at 0 and each page allocates
exactly four objects with the page node's id drawn first. -/
theorem claim_C1_stride_coincides_with_captured (dpi : ℕ) (data : List PageResult) :
    lookupObj (buildDocument dpi data) (4 * data.length + 1)
      = some (.dict [("Type", .name "Pages"), ("Count", .int (data.length : ℕ)),
          ("Kids", .array ((stridePageIds data.length).map PObj.ref))]) ∧
    stridePageIds data.length = capturedPageIds dpi data := by
  constructor
  · exact buildDocument_pagesNode dpi data
  · exact (capturedPageIds_eq_stride dpi data).symm

/-- C2 (counterexample).  The claim says each channel is
`min(255, round(channel × 255 / a))`; at channel 1, alpha 2 the exact value
is 127.5, the spec's round gives 128, but the code truncates the f32 result
(`as u8`) and yields 127. -/
theorem claim_C2_counterexample :
    unpremulChannel 1 2 = 127 ∧ specRoundChannel 1 2 = 128 ∧
    unpremulChannel 1 2 ≠ specRoundChannel 1 2 := by
  refine ⟨by decide, by decide, by decide⟩

/-- C2 (amended).  For `a > 0` the produced channel is the f32-evaluated,
truncated quotient, which lands within one of the exact
`min(255, ⌊channel × 255 / a⌋)` (truncation, not rounding; single-precision
evaluation can additionally lose one unit, e.g. at channel 7, alpha 7). -/
theorem claim_C2_truncated_channel (c a : ℕ) (hc : c ≤ 255) (ha1 : 1 ≤ a)
    (ha2 : a ≤ 255) :
    unpremulChannel c a ≤ min 255 ((255 * c) / a) + 1 ∧
    min 255 ((255 * c) / a) ≤ unpremulChannel c a + 1 :=
  unpremulChannel_near_floor c a hc ha1 ha2

theorem claim_C2_truncated_channel_witness :
    1 ≤ 255 ∧ 1 ≤ 2 ∧ 2 ≤ 255 ∧
    (unpremulChannel 1 2 ≤ min 255 ((255 * 1) / 2) + 1 ∧
     min 255 ((255 * 1) / 2) ≤ unpremulChannel 1 2 + 1) :=
  ⟨by decide, by decide, by decide,
    claim_C2_truncated_channel 1 2 (by decide) (by decide) (by decide)⟩

/-- C3.  For every input whose N pages all convert successfully, in any
completion order of the per-page work: the results carry exactly the indices
`0..N-1`, the sort restores index order, the page tree node has `Count = N`
and its `i`-th `Kids` entry is the reference `1 + i*4`, and the object at
that id is the page dictionary built from the result with index `i`. -/
theorem claim_C3_order_count_kids {Page : Type} (ext : Ext Page) (dpi : ℕ)
    (pages : List Page) (results shuffled : List PageResult)
    (hproc : processList ext pages.enum = .ok results)
    (hperm : shuffled.Perm results) :
    results.length = pages.length ∧
    sortResults shuffled = results ∧
    lookupObj (buildDocument dpi (sortResults shuffled)) (4 * results.length + 1)
      = some (.dict [("Type", .name "Pages"), ("Count", .int (results.length : ℕ)),
          ("Kids", .array ((stridePageIds results.length).map PObj.ref))]) ∧
    (∀ i pg, results[i]? = some pg →
      pg.1 = i ∧
      (stridePageIds results.length)[i]? = some (1 + i * 4) ∧
      lookupObj (buildDocument dpi (sortResults shuffled)) (1 + i * 4)
        = some (.dict (pageDictEntries dpi i pg.2.2.1 pg.2.2.2 (4*i+3) (4*i+4)
            ++ [("Parent", .ref (4 * results.length + 1))]))) := by
  have h1 := processList_ok_keys ext pages.enum results hproc
  have h2 : pages.enum.map Prod.fst = List.range pages.length :=
    List.enum_map_fst pages
  have hlen : results.length = pages.length := by
    have h3 := congrArg List.length h1
    simpa using h3
  have hkeys : results.map Prod.fst = List.range results.length := by
    rw [h1, h2, hlen]
  have hsort : sortResults shuffled = results :=
    sortResults_eq_of_perm shuffled results hperm hkeys
  refine ⟨hlen, hsort, ?_, ?_⟩
  · rw [hsort]
    exact buildDocument_pagesNode dpi results
  · intro i pg hget
    have hlt : i < results.length := by
      by_contra hc
      push_neg at hc
      rw [List.getElem?_eq_none hc] at hget
      exact absurd hget (by simp)
    refine ⟨?_, ?_, ?_⟩
    · have hm : (results.map Prod.fst)[i]? = some pg.1 := by
        rw [List.getElem?_map, hget]
        rfl
      rw [hkeys, List.getElem?_range hlt] at hm
      injection hm with hm
      exact hm.symm
    · unfold stridePageIds
      rw [List.getElem?_map, List.getElem?_range hlt]
      rfl
    · rw [hsort]
      have he : 1 + i * 4 = 4 * i + 1 := by omega
      rw [he]
      exact buildDocument_pageNode dpi results i pg hget

theorem claim_C3_order_count_kids_witness :
    processList extTwo ([(), ()] : List Unit).enum
        = .ok [((0:ℕ), ([9]:List ℕ), (1:ℕ), (1:ℕ)), ((1:ℕ), ([9]:List ℕ), (1:ℕ), (1:ℕ))] ∧
    (([((1:ℕ), ([9]:List ℕ), (1:ℕ), (1:ℕ)), ((0:ℕ), ([9]:List ℕ), (1:ℕ), (1:ℕ))] :
        List PageResult).Perm
      [((0:ℕ), ([9]:List ℕ), (1:ℕ), (1:ℕ)), ((1:ℕ), ([9]:List ℕ), (1:ℕ), (1:ℕ))]) ∧
    ([((0:ℕ), ([9]:List ℕ), (1:ℕ), (1:ℕ)), ((1:ℕ), ([9]:List ℕ), (1:ℕ), (1:ℕ))] :
        List PageResult).length = ([(), ()] : List Unit).length ∧
    sortResults [((1:ℕ), ([9]:List ℕ), (1:ℕ), (1:ℕ)), ((0:ℕ), ([9]:List ℕ), (1:ℕ), (1:ℕ))]
      = [((0:ℕ), ([9]:List ℕ), (1:ℕ), (1:ℕ)), ((1:ℕ), ([9]:List ℕ), (1:ℕ), (1:ℕ))] := by
  have h := claim_C3_order_count_kids extTwo 72 ([(), ()] : List Unit)
    [((0:ℕ), ([9]:List ℕ), (1:ℕ), (1:ℕ)), ((1:ℕ), ([9]:List ℕ), (1:ℕ), (1:ℕ))]
    [((1:ℕ), ([9]:List ℕ), (1:ℕ), (1:ℕ)), ((0:ℕ), ([9]:List ℕ), (1:ℕ), (1:ℕ))]
    rfl (by decide)
  exact ⟨rfl, by decide, h.1, h.2.1⟩

/-- C4 (counterexample).  The claim puts the output size within one unit of
`(W/d)·72` for every rendered pixel size; at width `2^25 + 1` and dpi 1 the
u32→f32 cast alone loses the trailing 1, and the computed size is off by 72
points. -/
theorem claim_C4_counterexample :
    ¬ (|pageSizePt 33554433 1 - 72 * (33554433:ℚ) / (1:ℚ)| ≤ 1) := by
  have heval : pageSizePt 33554433 1 = 2415919104 := by decide
  rw [heval]
  norm_num

/-- C4 (amended).  For pixel sides and dpi up to `2^24` with at most 65536
pixels per dot of resolution (i.e. pages up to 65536 inches a side), the
f32-computed page size is within one point of `(px/dpi)·72`, and the
`MediaBox` entry of every assembled page dictionary holds exactly these
computed values `[0, 0, pageSizePt W dpi, pageSizePt H dpi]` — a function of
the pixel dimensions and the DPI alone. -/
theorem claim_C4_geometry (w h d : ℕ) (hd1 : 1 ≤ d) (hd2 : d ≤ 2 ^ 24)
    (hw : w ≤ 2 ^ 24) (hh : h ≤ 2 ^ 24) (hwd : w ≤ 65536 * d)
    (hhd : h ≤ 65536 * d) :
    |pageSizePt w d - 72 * (w:ℚ) / (d:ℚ)| ≤ 1 ∧
    |pageSizePt h d - 72 * (h:ℚ) / (d:ℚ)| ≤ 1 ∧
    (∀ i c r, ("MediaBox", PObj.array [.int 0, .int 0,
        .real (pageSizePt w d), .real (pageSizePt h d)])
      ∈ pageDictEntries d i w h c r) := by
  refine ⟨pageSizePt_near w d hd1 hd2 hw hwd,
    pageSizePt_near h d hd1 hd2 hh hhd, ?_⟩
  intro i c r
  simp [pageDictEntries]

theorem claim_C4_geometry_witness :
    1 ≤ 150 ∧ 150 ≤ 2 ^ 24 ∧ 1275 ≤ 2 ^ 24 ∧ 1650 ≤ 2 ^ 24 ∧
    1275 ≤ 65536 * 150 ∧ 1650 ≤ 65536 * 150 ∧
    (|pageSizePt 1275 150 - 72 * (1275:ℚ) / (150:ℚ)| ≤ 1 ∧
     |pageSizePt 1650 150 - 72 * (1650:ℚ) / (150:ℚ)| ≤ 1 ∧
     (∀ i c r, ("MediaBox", PObj.array [.int 0, .int 0,
         .real (pageSizePt 1275 150), .real (pageSizePt 1650 150)])
       ∈ pageDictEntries 150 i 1275 1650 c r)) :=
  ⟨by decide, by decide, by decide, by decide, by decide, by decide,
    claim_C4_geometry 1275 1650 150 (by decide) (by decide) (by decide)
      (by decide) (by decide) (by decide)⟩

/-- C5.  A fully transparent pixel (alpha = 0) maps to `(0,0,0)` for every
value of the color channels: the `a > 0` branch is not taken and three
zeros are pushed, no error possible. -/
theorem claim_C5_transparent_black (r g b : ℕ) :
    unpremulPixel r g b 0 = (0, 0, 0) := by
  simp [unpremulPixel]

/-- C6.  A fully opaque pixel (alpha = 255) is unchanged exactly:
`255/255` rounds to 1 in f32, multiplication by 1 and the cast back are
exact for channels up to 255. -/
theorem claim_C6_opaque_identity (r g b : ℕ) (hr : r ≤ 255) (hg : g ≤ 255)
    (hb : b ≤ 255) : unpremulPixel r g b 255 = (r, g, b) := by
  unfold unpremulPixel
  rw [if_pos (by omega)]
  rw [unpremulChannel_alpha255 r hr, unpremulChannel_alpha255 g hg,
    unpremulChannel_alpha255 b hb]

theorem claim_C6_opaque_identity_witness :
    10 ≤ 255 ∧ 200 ≤ 255 ∧ 0 ≤ 255 ∧
    unpremulPixel 10 200 0 255 = (10, 200, 0) :=
  ⟨by decide, by decide, by decide,
    claim_C6_opaque_identity 10 200 0 (by decide) (by decide) (by decide)⟩

/-- C7.  Every error is terminal for both drivers: a parse failure becomes
the driver's single tagged error result, and an `ok` result is only possible
when parsing, every per-page conversion, and serialization all succeeded —
so no partial output can be produced. -/
theorem claim_C7_errors_terminal {Page : Type} (ext : Ext Page)
    (bytes : List ℕ) (dpi : ℕ) :
    (∀ e, ext.parse bytes = .error e →
      rasterizePdf ext bytes dpi = .error ("PDF parsing failed: " ++ e)) ∧
    (∀ out, rasterizePdf ext bytes dpi = .ok out →
      ∃ pages results, ext.parse bytes = .ok pages ∧
        processList ext pages.enum = .ok results ∧
        ext.saveTo (buildDocument dpi (sortResults results)) = .ok out) ∧
    (∀ e, ext.parse bytes = .error e →
      rasterizePdfWithProgress ext bytes dpi = .error ("PDF parsing failed: " ++ e)) ∧
    (∀ out, rasterizePdfWithProgress ext bytes dpi = .ok out →
      ∃ pages results, ext.parse bytes = .ok pages ∧
        processList ext pages.enum = .ok results ∧
        ext.saveTo (buildDocument dpi (sortResults results)) = .ok out) := by
  refine ⟨fun e he => rasterizePdf_parse_error ext bytes dpi e he,
    fun out hout => (rasterizePdf_ok_iff ext bytes dpi out).mp hout, ?_, ?_⟩
  · intro e he
    rw [← drivers_agree]
    exact rasterizePdf_parse_error ext bytes dpi e he
  · intro out hout
    rw [← drivers_agree] at hout
    exact (rasterizePdf_ok_iff ext bytes dpi out).mp hout

theorem claim_C7_errors_terminal_witness :
    rasterizePdf extParseFail [] 72 = .error ("PDF parsing failed: " ++ "broken") :=
  (claim_C7_errors_terminal extParseFail [] 72).1 "broken" rfl

/-- C8.  The batch driver and the cooperative driver are extensionally
equal: same parse, same per-page conversion at the same fixed quality, and
the batch driver's sort is the identity because the collected results are
already in index order — hence identical page count, order and per-page
encoded bytes. -/
theorem claim_C8_driver_equivalence {Page : Type} (ext : Ext Page)
    (bytes : List ℕ) (dpi : ℕ) :
    rasterizePdf ext bytes dpi = rasterizePdfWithProgress ext bytes dpi :=
  drivers_agree ext bytes dpi

/-- C9.  A zero-page document converts successfully: with a parser returning
no pages and a serializer that accepts the assembled document, the driver
returns `Ok`, and the assembled page tree node (object 1) has `Count` 0 and
an empty `Kids` array. -/
theorem claim_C9_zero_pages {Page : Type} (ext : Ext Page) (bytes : List ℕ)
    (dpi : ℕ) (out : List ℕ) (hp : ext.parse bytes = .ok ([] : List Page))
    (hs : ext.saveTo (buildDocument dpi []) = .ok out) :
    rasterizePdf ext bytes dpi = .ok out ∧
    lookupObj (buildDocument dpi []) 1
      = some (.dict [("Type", .name "Pages"), ("Count", .int 0),
          ("Kids", .array ([] : List PObj))]) := by
  constructor
  · rw [rasterizePdf_ok_iff]
    refine ⟨[], [], hp, rfl, ?_⟩
    have hnil : sortResults ([] : List PageResult) = [] := by
      simp [sortResults]
    rw [hnil]
    exact hs
  · rw [buildDocument_nil]
    simp [lookupObj, findEntry, pagesObj, stridePageIds]

theorem claim_C9_zero_pages_witness :
    rasterizePdf extZero [] 72 = .ok [] ∧
    lookupObj (buildDocument 72 []) 1
      = some (.dict [("Type", .name "Pages"), ("Count", .int 0),
          ("Kids", .array ([] : List PObj))]) :=
  claim_C9_zero_pages extZero [] 72 [] rfl rfl

/-- C10.  If the rendered RGBA buffer has length exactly `4·w·h`, the RGB
buffer built by the un-premultiply loop has length exactly `3·w·h`, so
`RgbImage::from_vec` (which requires at least `3·w·h` bytes) cannot fail:
its error branch is unreachable under that precondition. -/
theorem claim_C10_from_vec_total (w h : ℕ) (rgba : List ℕ)
    (hlen : rgba.length = 4 * w * h) :
    (rgbOfRgba rgba).length = 3 * w * h ∧
    (rgbImageFromVec w h (rgbOfRgba rgba)).isSome = true := by
  have hlen3 : (rgbOfRgba rgba).length = 3 * w * h := by
    rw [rgbOfRgba_length, hlen]
    have h4 : 4 * w * h = 4 * (w * h) := by ring
    rw [h4, Nat.mul_div_cancel_left (w * h) (by norm_num : 0 < 4)]
    ring
  refine ⟨hlen3, ?_⟩
  rw [rgbImageFromVec, if_pos (by omega)]
  rfl

theorem claim_C10_from_vec_total_witness :
    ([10, 20, 30, 40] : List ℕ).length = 4 * 1 * 1 ∧
    ((rgbOfRgba [10, 20, 30, 40]).length = 3 * 1 * 1 ∧
     (rgbImageFromVec 1 1 (rgbOfRgba [10, 20, 30, 40])).isSome = true) :=
  ⟨by decide, claim_C10_from_vec_total 1 1 [10, 20, 30, 40] (by decide)⟩

end PdfRasterizer
